import Mathlib

/-! Talisman: change enumeration and pattern matching

A shallow embedding of `git_repo/git_repo.go` and of `readRefAndSha` from
`talisman.go`.

Go strings and byte slices are sequences of bytes; they are embedded as lists
of natural numbers (`Str`).  The functions of the Go standard library that the
code calls (`path.Base`, `path.Match`, `path.Join`, `strings.HasPrefix`,
`strings.Split`, `strings.Trim`, `bufio.Reader.ReadString`,
`utf8.DecodeRuneInString`) are embedded after their library sources.
-/

namespace Talisman

/-- A Go string or byte slice: a sequence of bytes. -/
abbrev Str := List Nat

deriving instance DecidableEq for Except

/-- UTF-8 encoding of one code point (used only to write byte strings down). -/
def encodeRune (c : Nat) : Str :=
  if c < 128 then [c]
  else if c < 2048 then [192 + c / 64, 128 + c % 64]
  else if c < 65536 then [224 + c / 4096, 128 + c / 64 % 64, 128 + c % 64]
  else [240 + c / 262144, 128 + c / 4096 % 64, 128 + c / 64 % 64, 128 + c % 64]

/-- The bytes of a string literal. -/
def bytes (s : String) : Str :=
  (s.toList.map (fun c => encodeRune c.toNat)).flatten

/-- The path separator `os.PathSeparator`, taken as `'/'`. -/
def PathSeparator : Nat := 47

/-! ## `strings` -/

/-- Go `strings.HasPrefix(s, prefix)`:
`len(s) >= len(prefix) && s[:len(prefix)] == prefix`. -/
def HasPrefix (s pre : Str) : Bool :=
  decide (pre.length ≤ s.length) && decide (s.take pre.length = pre)

/-- Go `strings.ContainsRune(s, r)` for a one-byte rune. -/
def ContainsRune (s : Str) (r : Nat) : Bool :=
  s.any (fun b => decide (b = r))

/-- Go `strings.Split(s, sep)` for a one-byte separator `sep`: the substrings
between the separators, in order; a string without separator gives `[s]`. -/
def Split (s : Str) (sep : Nat) : List Str :=
  match s with
  | [] => [[]]
  | x :: xs =>
    if x = sep then [] :: Split xs sep
    else
      match Split xs sep with
      | [] => [[x]]
      | seg :: segs => (x :: seg) :: segs

/-- Go `strings.Trim(s, cutset)` for a one-byte cutset: all leading and
trailing occurrences of the byte are removed. -/
def Trim (s : Str) (cut : Nat) : Str :=
  ((s.reverse.dropWhile (fun b => decide (b = cut))).reverse).dropWhile
    (fun b => decide (b = cut))

/-- Go `bufio.Reader.ReadString(delim)` on a reader holding `input`: the data
up to and including the first `delim`, or all of it when there is none (the
error, `io.EOF`, is ignored by the caller). -/
def ReadString (input : Str) (delim : Nat) : Str :=
  match input with
  | [] => []
  | x :: xs => if x = delim then [x] else x :: ReadString xs delim

/-! ## `path.Base` -/

/-- Go `lastSlash(s)`: the index of the last `'/'` of `s`, or `-1`. -/
def lastSlash (s : Str) : Int :=
  (s.length : Int) - 1 - ((s.reverse.takeWhile (fun b => decide (b ≠ 47))).length : Int)

/-- Go `path.Base(path)`: the last element of the path; trailing slashes are
removed first; `"."` for the empty path and `"/"` for a path of slashes. -/
def Base (path : Str) : Str :=
  if path = [] then [46]
  else
    let p1 := (path.reverse.dropWhile (fun b => decide (b = 47))).reverse
    let i := lastSlash p1
    let p2 := if 0 ≤ i then p1.drop (i + 1).toNat else p1
    if p2 = [] then [47] else p2

/-! ## `unicode/utf8` -/

/-- Go `utf8.RuneError`, U+FFFD. -/
def RuneError : Nat := 65533

/-- The part of Go `utf8.DecodeRuneInString` after the leading byte `s0` has
been classified: `sz` is the width announced by `s0`, `lo` and `hi` the range
accepted for the second byte (`acceptRanges`), `n` the length of the string
and `t` the bytes after `s0`. -/
def decodeMulti (s0 sz lo hi n : Nat) (t : Str) : Nat × Nat :=
  if n < sz then (RuneError, 1)
  else
    match t with
    | [] => (RuneError, 1)
    | s1 :: t1 =>
      if s1 < lo ∨ hi < s1 then (RuneError, 1)
      else if sz ≤ 2 then (s0 % 32 * 64 + s1 % 64, 2)
      else
        match t1 with
        | [] => (RuneError, 1)
        | s2 :: t2 =>
          if s2 < 128 ∨ 191 < s2 then (RuneError, 1)
          else if sz ≤ 3 then (s0 % 16 * 4096 + s1 % 64 * 64 + s2 % 64, 3)
          else
            match t2 with
            | [] => (RuneError, 1)
            | s3 :: _ =>
              if s3 < 128 ∨ 191 < s3 then (RuneError, 1)
              else (s0 % 8 * 262144 + s1 % 64 * 4096 + s2 % 64 * 64 + s3 % 64, 4)

/-- Go `utf8.DecodeRuneInString(s)`: the first code point of `s` and its width
in bytes; `(RuneError, 0)` for the empty string and `(RuneError, 1)` for an
invalid encoding.  The table `first` and `acceptRanges` of the library are
written out as comparisons on the leading byte. -/
def DecodeRuneInString (s : Str) : Nat × Nat :=
  match s with
  | [] => (RuneError, 0)
  | s0 :: t =>
    if s0 < 128 then (s0, 1)
    else if s0 < 194 ∨ 244 < s0 then (RuneError, 1)
    else
      decodeMulti s0
        (if s0 < 224 then 2 else if s0 < 240 then 3 else 4)
        (if s0 = 224 then 160 else if s0 = 240 then 144 else 128)
        (if s0 = 237 then 159 else if s0 = 244 then 143 else 191)
        s.length t

/-! ## `path.Match` -/

/-- The error of `path.Match`. -/
inductive GlobError
  | ErrBadPattern
  deriving DecidableEq, Repr

/-- Go `getEsc(chunk)`: a possibly escaped character of a character class and
the chunk after it; `ErrBadPattern` when the chunk is empty, starts with `-`
or `]`, ends after a backslash, holds an invalid encoding, or ends after the
character. -/
def getEsc (chunk : Str) : Except GlobError (Nat × Str) :=
  match chunk with
  | [] => .error .ErrBadPattern
  | c :: rest =>
    if c = 45 ∨ c = 93 then .error .ErrBadPattern
    else
      let chunk1 := if c = 92 then rest else chunk
      if chunk1 = [] then .error .ErrBadPattern
      else
        let rn := DecodeRuneInString chunk1
        let nchunk := chunk1.drop rn.2
        if (rn.1 = RuneError ∧ rn.2 = 1) ∨ nchunk = [] then .error .ErrBadPattern
        else .ok (rn.1, nchunk)

/-- The loop `for { ... }` of `matchChunk` that parses the ranges of a
character class: `chunk` is the pattern after `[` or `[^`, `r` the character
of the name, `mtch` and `nrange` the loop variables.  The result is the chunk
after the closing `]` and whether a range held `r`.  `none`: out of fuel. -/
def classLoop (fuel : Nat) (chunk : Str) (r : Nat) (mtch : Bool) (nrange : Nat) :
    Option (Except GlobError (Str × Bool)) :=
  match fuel with
  | 0 => none
  | fuel + 1 =>
    if chunk.head? = some 93 ∧ 0 < nrange then some (.ok (chunk.tail, mtch))
    else
      match getEsc chunk with
      | .error e => some (.error e)
      | .ok (lo, chunk1) =>
        if chunk1.head? = some 45 then
          match getEsc chunk1.tail with
          | .error e => some (.error e)
          | .ok (hi, chunk2) =>
            classLoop fuel chunk2 r (mtch || (decide (lo ≤ r) && decide (r ≤ hi))) (nrange + 1)
        else
          classLoop fuel chunk1 r (mtch || (decide (lo ≤ r) && decide (r ≤ lo))) (nrange + 1)

/-- The loop of Go `matchChunk(chunk, s)`, with its variable `failed`.  The
result is `.ok (some rest)` for `(rest, true, nil)`, `.ok none` for
`("", false, nil)` and `.error` for `("", false, err)`.  `none`: out of
fuel. -/
def matchChunkLoop (fuel : Nat) (chunk s : Str) (failed : Bool) :
    Option (Except GlobError (Option Str)) :=
  match fuel with
  | 0 => none
  | fuel + 1 =>
    match chunk with
    | [] => some (.ok (if failed then none else some s))
    | c :: rest =>
      let failed := failed || s.isEmpty
      if c = 91 then
        let r := if failed then 0 else (DecodeRuneInString s).1
        let s1 := if failed then s else s.drop (DecodeRuneInString s).2
        let negated := decide (rest.head? = some 94)
        let chunk1 := if negated then rest.tail else rest
        match classLoop fuel chunk1 r false 0 with
        | none => none
        | some (.error e) => some (.error e)
        | some (.ok (chunk2, mtch)) =>
          matchChunkLoop fuel chunk2 s1 (failed || (mtch == negated))
      else if c = 63 then
        if failed then matchChunkLoop fuel rest s failed
        else
          matchChunkLoop fuel rest (s.drop (DecodeRuneInString s).2)
            (decide (s.head? = some 47))
      else if c = 92 then
        match rest with
        | [] => some (.error .ErrBadPattern)
        | c1 :: rest1 =>
          if failed then matchChunkLoop fuel rest1 s failed
          else matchChunkLoop fuel rest1 s.tail (decide (s.head? ≠ some c1))
      else
        if failed then matchChunkLoop fuel rest s failed
        else matchChunkLoop fuel rest s.tail (decide (s.head? ≠ some c))

/-- Go `matchChunk(chunk, s)`: whether `chunk` matches the beginning of `s`,
and the remainder of `s`. -/
def matchChunk (chunk s : Str) : Except GlobError (Option Str) :=
  (matchChunkLoop (chunk.length + 1) chunk s false).getD (.error .ErrBadPattern)

/-- The scanning loop of Go `scanChunk`: the index of the first `*` outside a
character class, or the length of the pattern; a backslash skips the byte
after it. -/
def scanIndex (pattern : Str) (inrange : Bool) : Nat :=
  match pattern with
  | [] => 0
  | c :: rest =>
    if c = 92 then
      match rest with
      | [] => 1
      | _ :: rest1 => 2 + scanIndex rest1 inrange
    else if c = 91 then 1 + scanIndex rest true
    else if c = 93 then 1 + scanIndex rest false
    else if c = 42 then (if inrange then 1 + scanIndex rest inrange else 0)
    else 1 + scanIndex rest inrange

/-- Go `scanChunk(pattern)`: whether the pattern starts with stars, the chunk
after them up to the next star outside a class, and the rest. -/
def scanChunk (pattern : Str) : Bool × Str × Str :=
  let p := pattern.dropWhile (fun b => decide (b = 42))
  let star := decide (pattern.head? = some 42)
  let i := scanIndex p false
  (star, p.take i, p.drop i)

/-- The loop `for i := 0; i < len(name) && name[i] != '/'; i++` of Go `Match`
that looks for a match of `chunk` after skipping `i+1` bytes of the name;
`lastChunk` is `len(pattern) == 0`.  `.ok (some t)`: the loop left by
`continue Pattern` with `name = t`; `.ok none`: the loop ran to its end. -/
def starLoop (chunk : Str) (lastChunk : Bool) (name : Str) : Except GlobError (Option Str) :=
  match name with
  | [] => .ok none
  | c :: rest =>
    if c = 47 then .ok none
    else
      match matchChunk chunk rest with
      | .ok (some t) =>
        if lastChunk ∧ t ≠ [] then starLoop chunk lastChunk rest else .ok (some t)
      | .ok none => starLoop chunk lastChunk rest
      | .error e => .error e

/-- The loop at the end of Go `Match` that checks that the remainder of the
pattern is syntactically valid.  `none`: out of fuel. -/
def checkLoop (fuel : Nat) (pattern : Str) : Option (Except GlobError Unit) :=
  match fuel with
  | 0 => none
  | fuel + 1 =>
    if pattern = [] then some (.ok ())
    else
      match matchChunk (scanChunk pattern).2.1 [] with
      | .error e => some (.error e)
      | .ok _ => checkLoop fuel (scanChunk pattern).2.2

/-- The loop `Pattern:` of Go `Match(pattern, name)`.  `.ok b` is the result
`(b, nil)`, `.error e` the result `(false, e)`.  `none`: out of fuel. -/
def MatchLoop (fuel : Nat) (pattern name : Str) : Option (Except GlobError Bool) :=
  match fuel with
  | 0 => none
  | fuel + 1 =>
    if pattern = [] then some (.ok (decide (name = [])))
    else
      let star := (scanChunk pattern).1
      let chunk := (scanChunk pattern).2.1
      let rest := (scanChunk pattern).2.2
      if star ∧ chunk = [] then some (.ok (!ContainsRune name 47))
      else
        let notFound : Option (Except GlobError Bool) :=
          match checkLoop (fuel + 1) rest with
          | none => none
          | some (.error e) => some (.error e)
          | some (.ok _) => some (.ok false)
        let afterChunk : Option (Except GlobError Bool) :=
          if star then
            match starLoop chunk (decide (rest = [])) name with
            | .error e => some (.error e)
            | .ok (some t) => MatchLoop fuel rest t
            | .ok none => notFound
          else notFound
        match matchChunk chunk name with
        | .error e => some (.error e)
        | .ok (some t) => if t = [] ∨ rest ≠ [] then MatchLoop fuel rest t else afterChunk
        | .ok none => afterChunk

/-- Go `path.Match(pattern, name)` (Go 1.16 and later): whether `name` matches
the shell pattern; `.error ErrBadPattern` stands for `(false, ErrBadPattern)`,
the only shape in which the library returns an error. -/
def Match (pattern name : Str) : Except GlobError Bool :=
  (MatchLoop (pattern.length + 1) pattern name).getD (.error .ErrBadPattern)

/-! ## `path.Join` -/

/-- The backward scan `for out.w > dotdot && out.index(out.w) != '/' { out.w-- }`
of Go `Clean`, from write position `w`. -/
def backtrack (buf : Str) (dotdot : Nat) (w : Nat) : Nat :=
  match w with
  | 0 => 0
  | w + 1 => if dotdot < w + 1 ∧ buf.getD (w + 1) 0 ≠ 47 then backtrack buf dotdot w else w + 1

/-- The loop `for r < n` of Go `Clean`, over the unread part of the path, with
output buffer `out` and the variable `dotdot`.  The inner loop that copies one
path element is unrolled into the flag `inElem` (set while inside an
element), so that every step reads at least one byte. -/
def cleanLoop (rooted : Bool) (rem : Str) (inElem : Bool) (out : Str) (dotdot : Nat) : Str :=
  let start : Str :=
    if (rooted ∧ out.length ≠ 1) ∨ (¬ rooted ∧ out.length ≠ 0) then out ++ [47] else out
  match rem with
  | [] => out
  | [c] =>
    if inElem then (if c = 47 then out else out ++ [c])
    else if c = 47 then out
    else if c = 46 then out
    else start ++ [c]
  | c :: d :: rest2 =>
    if inElem then
      if c = 47 then cleanLoop rooted (d :: rest2) false out dotdot
      else cleanLoop rooted (d :: rest2) true (out ++ [c]) dotdot
    else if c = 47 then cleanLoop rooted (d :: rest2) false out dotdot
    else if c = 46 ∧ d = 47 then cleanLoop rooted (d :: rest2) false out dotdot
    else if c = 46 ∧ d = 46 ∧ (rest2 = [] ∨ rest2.head? = some 47) then
      if dotdot < out.length then
        cleanLoop rooted rest2 false (out.take (backtrack out dotdot (out.length - 1))) dotdot
      else if rooted then cleanLoop rooted rest2 false out dotdot
      else
        cleanLoop rooted rest2 false ((if 0 < out.length then out ++ [47] else out) ++ [46, 46])
          ((if 0 < out.length then out ++ [47] else out) ++ [46, 46]).length
    else cleanLoop rooted (d :: rest2) true (start ++ [c]) dotdot

/-- Go `path.Clean(path)`: the shortest path name equivalent to `path` by
purely lexical processing. -/
def Clean (path : Str) : Str :=
  if path = [] then [46]
  else
    let rooted := decide (path.head? = some 47)
    let out := cleanLoop rooted path false (if rooted then [47] else []) (if rooted then 1 else 0)
    if out = [] then [46] else out

/-- Go `path.Join(elem...)`: the elements joined with slashes, empty leading
elements ignored, and the result cleaned; `""` when all elements are empty. -/
def Join (elem : List Str) : Str :=
  if (elem.map List.length).sum = 0 then []
  else
    Clean (elem.foldl
      (fun buf e => if buf ≠ [] ∨ e ≠ [] then (if buf ≠ [] then buf ++ [47] else buf) ++ e else buf)
      [])

/-! ## The repository accessor and the addition matcher (`git_repo.go`) -/

/-- An `Addition`: the end state of a file (`FilePath`, `FileName` and
`[]byte` are all byte strings). -/
structure Addition where
  Path : Str
  Name : Str
  Data : Str
  deriving DecidableEq, Repr

/-- A `GitRepo`: a Git repository located at the path `root`. -/
structure GitRepo where
  root : Str
  deriving DecidableEq, Repr

/-- One invocation of an external command: `exec.Command(name, args...)` run
with `Dir = dir`. -/
structure Command where
  dir : Str
  name : Str
  args : List Str
  deriving DecidableEq, Repr

/-- What the file system holds at a path where a file exists: a file whose
bytes can be read; a file on which `os.Stat` succeeds and whose read fails; or
a file that cannot be reached (a directory on the way to it may not be
searched), on which `os.Stat` and the read both fail. -/
inductive FileEntry
  | content (data : Str)
  | unreadable
  | inaccessible
  deriving DecidableEq, Repr

/-- The error of a file read. -/
inductive IOError
  | notExist
  | readFailed
  | permission
  deriving DecidableEq, Repr

/-- The world outside the program: the result of `Cmd.Output()` for each
command (`.error ()` when the command fails), and the file system state
(`none` when no file exists at the path). -/
structure World where
  output : Command → Except Unit Str
  files : Str → Option FileEntry

/-- Go `ioutil.ReadFile(filename)`; `.error e` stands for `(nil, e)`. -/
def ReadFile (w : World) (filename : Str) : Except IOError Str :=
  match w.files filename with
  | none => .error .notExist
  | some (.content data) => .ok data
  | some .unreadable => .error .readFailed
  | some .inaccessible => .error .permission

/-- Go `os.Stat(name)`, reduced to whether its error is `nil`: it fails when
no file exists at the path and when the file exists and cannot be reached. -/
def Stat (w : World) (name : Str) : Bool :=
  match w.files name with
  | none => false
  | some (.content _) => true
  | some .unreadable => true
  | some .inaccessible => false

/-- The outcome of a function that runs external commands: the commands it
ran, in order, and its result; `none` when `log.Fatal` ended the process. -/
structure Run (α : Type) where
  trace : List Command
  result : Option α

/-- `NewAddition(filePath, content)`. -/
def NewAddition (filePath : Str) (content : Str) : Addition :=
  { Path := filePath, Name := Base filePath, Data := content }

/-- `GitRepo.ReadRepoFile(fileName)`. -/
def ReadRepoFile (w : World) (repo : GitRepo) (fileName : Str) : Except IOError Str :=
  ReadFile w (Join [repo.root, fileName])

/-- `GitRepo.ReadRepoFileOrNothing(fileName)`. -/
def ReadRepoFileOrNothing (w : World) (repo : GitRepo) (fileName : Str) : Except IOError Str :=
  let filepath := Join [repo.root, fileName]
  if Stat w filepath then ReadRepoFile w repo fileName
  else .ok []

/-- `Addition.Matches(pattern)`.  `none` is the run-time panic of
`pattern[len(pattern)-1]` on the empty pattern.  The error of `path.Match` is
dropped (`result, _ = path.Match(...)`), leaving `false`. -/
def Matches (a : Addition) (pattern : Str) : Option Bool :=
  match pattern.getLast? with
  | none => none
  | some last =>
    if last = PathSeparator then some (HasPrefix a.Path pattern)
    else if ContainsRune pattern PathSeparator then
      match Match pattern a.Path with
      | .ok result => some result
      | .error _ => some false
    else
      match Match pattern a.Name with
      | .ok result => some result
      | .error _ => some false

/-- `GitRepo.executeRepoCommand(commandName, args...)`: runs the command in
the repository root; a failing command is fatal. -/
def executeRepoCommand (w : World) (repo : GitRepo) (commandName : Str) (args : List Str) :
    Run Str :=
  let c : Command := { dir := repo.root, name := commandName, args := args }
  match w.output c with
  | .ok o => { trace := [c], result := some o }
  | .error _ => { trace := [c], result := none }

/-- `GitRepo.fetchRawOutgoingDiff(oldCommit, newCommit, path)`. -/
def fetchRawOutgoingDiff (w : World) (repo : GitRepo) (oldCommit newCommit path : Str) :
    Run Str :=
  let gitRange := oldCommit ++ bytes ".." ++ newCommit
  executeRepoCommand w repo (bytes "git")
    [bytes "diff", gitRange, bytes "--name-only", bytes "--diff-filter=ACM", path]

/-- `GitRepo.outgoingNonDeletedFiles(oldCommit, newCommit, path)`. -/
def outgoingNonDeletedFiles (w : World) (repo : GitRepo) (oldCommit newCommit path : Str) :
    Run (List Str) :=
  let raw := fetchRawOutgoingDiff w repo oldCommit newCommit path
  match raw.result with
  | none => { trace := raw.trace, result := none }
  | some out =>
    let allChanges := Split out 10
    { trace := raw.trace, result := some (allChanges.filter (fun c => decide (c.length ≠ 0))) }

/-- `GitRepo.Additions(oldCommit, newCommit, path)`. -/
def Additions (w : World) (repo : GitRepo) (oldCommit newCommit path : Str) :
    Run (List Addition) :=
  let files := outgoingNonDeletedFiles w repo oldCommit newCommit path
  match files.result with
  | none => { trace := files.trace, result := none }
  | some fs =>
    { trace := files.trace
      result := some (fs.map (fun file =>
        match ReadRepoFile w repo file with
        | .ok data => NewAddition file data
        | .error _ => NewAddition file [])) }

/-- `GitRepo.AllAdditions(path)`. -/
def AllAdditions (w : World) (repo : GitRepo) (path : Str) : Run (List Addition) :=
  Additions w repo (bytes "origin/master") (bytes "master") path

/-! ## `talisman.go` -/

/-- `readRefAndSha(file)`, on a reader holding the bytes `file`; the constant
`EmptySha`, declared in another file of the package, is a parameter. -/
def readRefAndSha (EmptySha : Str) (file : Str) : Str × Str × Str × Str :=
  let text := ReadString file 10
  let refsAndShas := Split (Trim text 10) 32
  if refsAndShas.length < 4 then (EmptySha, EmptySha, [], [])
  else (refsAndShas.getD 0 [], refsAndShas.getD 1 [], refsAndShas.getD 2 [], refsAndShas.getD 3 [])

/-! ## Specification-side definitions -/

/-- The command that `Additions` is expected to run: `git diff old..new
--name-only --diff-filter=ACM path` in the repository root. -/
def diffCommand (repo : GitRepo) (oldCommit newCommit path : Str) : Command :=
  { dir := repo.root
    name := bytes "git"
    args := [bytes "diff", oldCommit ++ bytes ".." ++ newCommit, bytes "--name-only",
      bytes "--diff-filter=ACM", path] }

/-- The non-empty segments of the tool's output split on `'\n'`. -/
def nonEmptyLines (out : Str) : List Str :=
  (Split out 10).filter (fun c => decide (c ≠ []))

/-- A world for the scenario of the specification: the diff of `v1..v2` in
`/repo` lists `a.txt` and `c/d.pem` (with an empty line between them), every
other command fails; `a.txt` can be read, `c/d.pem` is missing, `b.txt`
exists and cannot be read, `secret/key` exists and cannot be reached. -/
def scenarioWorld : World :=
  { output := fun c =>
      if c = diffCommand { root := bytes "/repo" } (bytes "v1") (bytes "v2") (bytes ".") then
        .ok (bytes "a.txt\n\nc/d.pem\n")
      else .error ()
    files := fun name =>
      if name = bytes "/repo/a.txt" then some (.content (bytes "hello"))
      else if name = bytes "/repo/b.txt" then some .unreadable
      else if name = bytes "/repo/secret/key" then some .inaccessible
      else none }

/-! ## Termination of the glob matcher

Each loop of `path.Match` is run with a fuel of one more than the length of
the pattern it reads; the lemmas below show that this fuel is never used up. -/

theorem decodeMulti_size_pos (s0 sz lo hi n : Nat) (t : Str) :
    1 ≤ (decodeMulti s0 sz lo hi n t).2 := by
  rcases t with _ | ⟨s1, _ | ⟨s2, _ | ⟨s3, t3⟩⟩⟩
  all_goals
    simp only [decodeMulti]
    split_ifs <;> simp

theorem DecodeRuneInString_size_pos (s : Str) (h : s ≠ []) : 1 ≤ (DecodeRuneInString s).2 := by
  cases s with
  | nil => exact absurd rfl h
  | cons s0 t =>
    simp only [DecodeRuneInString]
    split
    · simp
    · split
      · simp
      · exact decodeMulti_size_pos _ _ _ _ _ _

theorem getEsc_length (chunk : Str) (r : Nat) (nchunk : Str)
    (h : getEsc chunk = .ok (r, nchunk)) : nchunk ≠ [] ∧ nchunk.length < chunk.length := by
  cases chunk with
  | nil => simp [getEsc] at h
  | cons c rest =>
    simp only [getEsc] at h
    by_cases h1 : c = 45 ∨ c = 93
    · rw [if_pos h1] at h
      simp at h
    · rw [if_neg h1] at h
      generalize hc1 : (if c = 92 then rest else c :: rest) = chunk1 at h
      have hlen : chunk1.length ≤ rest.length + 1 := by
        subst hc1
        split <;> simp
      by_cases h2 : chunk1 = []
      · rw [if_pos h2] at h
        simp at h
      · rw [if_neg h2] at h
        have hpos := DecodeRuneInString_size_pos chunk1 h2
        split at h
        · simp at h
        · rename_i hcond
          simp only [Except.ok.injEq, Prod.mk.injEq] at h
          obtain ⟨-, rfl⟩ := h
          refine ⟨fun hn => hcond (Or.inr hn), ?_⟩
          have hpos2 : 0 < chunk1.length := List.length_pos.mpr h2
          simp only [List.length_drop, List.length_cons]
          omega

theorem classLoop_some (fuel : Nat) : ∀ (chunk : Str) (r : Nat) (mtch : Bool) (nrange : Nat),
    chunk.length < fuel →
    ∃ res, classLoop fuel chunk r mtch nrange = some res ∧
      ∀ c2 b, res = .ok (c2, b) → c2.length < chunk.length := by
  induction fuel with
  | zero => intro chunk r mtch nrange h; omega
  | succ fuel ih =>
    intro chunk r mtch nrange h
    unfold classLoop
    split
    · rename_i hc
      refine ⟨_, rfl, ?_⟩
      intro c2 b hres
      simp only [Except.ok.injEq, Prod.mk.injEq] at hres
      obtain ⟨rfl, -⟩ := hres
      cases chunk with
      | nil => simp at hc
      | cons c rest => simp
    · cases hg : getEsc chunk with
      | error e => exact ⟨_, rfl, by intro c2 b hres; simp at hres⟩
      | ok v =>
        obtain ⟨lo, chunk1⟩ := v
        obtain ⟨hne1, hlt1⟩ := getEsc_length chunk lo chunk1 hg
        simp only
        split
        · cases hg2 : getEsc chunk1.tail with
          | error e => exact ⟨_, rfl, by intro c2 b hres; simp at hres⟩
          | ok v2 =>
            obtain ⟨hi, chunk2⟩ := v2
            obtain ⟨-, hlt2⟩ := getEsc_length chunk1.tail hi chunk2 hg2
            have htl : chunk1.tail.length ≤ chunk1.length := by simp
            simp only
            obtain ⟨res, hres, hlen⟩ := ih chunk2 r
              (mtch || (decide (lo ≤ r) && decide (r ≤ hi))) (nrange + 1) (by omega)
            exact ⟨res, hres, fun c2 b hb => by have := hlen c2 b hb; omega⟩
        · obtain ⟨res, hres, hlen⟩ := ih chunk1 r
            (mtch || (decide (lo ≤ r) && decide (r ≤ lo))) (nrange + 1) (by omega)
          exact ⟨res, hres, fun c2 b hb => by have := hlen c2 b hb; omega⟩

theorem matchChunkLoop_some (fuel : Nat) : ∀ (chunk s : Str) (failed : Bool),
    chunk.length < fuel → ∃ res, matchChunkLoop fuel chunk s failed = some res := by
  induction fuel with
  | zero => intro chunk s failed h; omega
  | succ fuel ih =>
    intro chunk s failed h
    unfold matchChunkLoop
    cases chunk with
    | nil => exact ⟨_, rfl⟩
    | cons c rest =>
      simp only [List.length_cons] at h
      simp only
      split
      · have hlen : (if decide (rest.head? = some 94) = true then rest.tail else rest).length
            ≤ rest.length := by
          split <;> simp
        obtain ⟨res, hres, hlt⟩ := classLoop_some fuel
          (if decide (rest.head? = some 94) = true then rest.tail else rest)
          (if (failed || s.isEmpty) = true then 0 else (DecodeRuneInString s).1) false 0
          (by omega)
        rw [hres]
        cases res with
        | error e => exact ⟨_, rfl⟩
        | ok v =>
          obtain ⟨chunk2, mtch⟩ := v
          have := hlt chunk2 mtch rfl
          exact ih _ _ _ (by omega)
      · split
        · split
          · exact ih _ _ _ (by omega)
          · exact ih _ _ _ (by omega)
        · split
          · cases rest with
            | nil => exact ⟨_, rfl⟩
            | cons c1 rest1 =>
              simp only [List.length_cons] at h
              simp only
              split
              · exact ih _ _ _ (by omega)
              · exact ih _ _ _ (by omega)
          · split
            · exact ih _ _ _ (by omega)
            · exact ih _ _ _ (by omega)

theorem matchChunk_eq (chunk s : Str) :
    matchChunkLoop (chunk.length + 1) chunk s false = some (matchChunk chunk s) := by
  obtain ⟨res, hres⟩ := matchChunkLoop_some (chunk.length + 1) chunk s false (by omega)
  simp [matchChunk, hres]

theorem scanIndex_pos (c : Nat) (rest : Str) (b : Bool) (hc : c ≠ 42) :
    1 ≤ scanIndex (c :: rest) b := by
  unfold scanIndex
  split_ifs
  · cases rest with
    | nil => simp
    | cons d rest1 => simp only; omega
  all_goals omega

theorem dropWhile_length_le (p : Nat → Bool) (l : Str) : (l.dropWhile p).length ≤ l.length := by
  induction l with
  | nil => simp
  | cons x xs ih =>
    simp only [List.dropWhile_cons]
    split
    · simp only [List.length_cons]; omega
    · simp

theorem scanChunk_length (pattern : Str) (h : pattern ≠ []) :
    (scanChunk pattern).2.2.length < pattern.length := by
  cases pattern with
  | nil => exact absurd rfl h
  | cons c rest =>
    simp only [scanChunk, List.length_drop, List.length_cons]
    by_cases hc : c = 42
    · subst hc
      have := dropWhile_length_le (fun b => decide (b = 42)) rest
      simp only [List.dropWhile_cons, decide_True, if_true]
      omega
    · have hpos := scanIndex_pos c rest false hc
      simp only [List.dropWhile_cons, hc, decide_False, Bool.false_eq_true, if_false,
        List.length_cons]
      omega

theorem checkLoop_some (fuel : Nat) : ∀ (pattern : Str),
    pattern.length < fuel → ∃ res, checkLoop fuel pattern = some res := by
  induction fuel with
  | zero => intro pattern h; omega
  | succ fuel ih =>
    intro pattern h
    unfold checkLoop
    split
    · exact ⟨_, rfl⟩
    · rename_i hne
      have := scanChunk_length pattern hne
      split
      · exact ⟨_, rfl⟩
      · exact ih _ (by omega)

theorem MatchLoop_some (fuel : Nat) : ∀ (pattern name : Str),
    pattern.length < fuel → ∃ res, MatchLoop fuel pattern name = some res := by
  induction fuel with
  | zero => intro pattern name h; omega
  | succ fuel ih =>
    intro pattern name h
    unfold MatchLoop
    split
    · exact ⟨_, rfl⟩
    · rename_i hne
      have hlt := scanChunk_length pattern hne
      simp only
      split
      · exact ⟨_, rfl⟩
      · obtain ⟨cres, hcres⟩ := checkLoop_some (fuel + 1) (scanChunk pattern).2.2 (by omega)
        have hnotFound : ∃ res,
            (match checkLoop (fuel + 1) (scanChunk pattern).2.2 with
              | none => none
              | some (.error e) => some (.error e)
              | some (.ok _) => some (.ok false) : Option (Except GlobError Bool)) = some res := by
          rw [hcres]
          cases cres with
          | error e => exact ⟨_, rfl⟩
          | ok u => exact ⟨_, rfl⟩
        have hafter : ∃ res,
            (if (scanChunk pattern).1 = true then
              match starLoop (scanChunk pattern).2.1 (decide ((scanChunk pattern).2.2 = [])) name with
              | .error e => some (.error e)
              | .ok (some t) => MatchLoop fuel (scanChunk pattern).2.2 t
              | .ok none =>
                (match checkLoop (fuel + 1) (scanChunk pattern).2.2 with
                  | none => none
                  | some (.error e) => some (.error e)
                  | some (.ok _) => some (.ok false) : Option (Except GlobError Bool))
            else
              (match checkLoop (fuel + 1) (scanChunk pattern).2.2 with
                | none => none
                | some (.error e) => some (.error e)
                | some (.ok _) => some (.ok false) : Option (Except GlobError Bool))) = some res := by
          split
          · split
            · exact ⟨_, rfl⟩
            · exact ih _ _ (by omega)
            · exact hnotFound
          · exact hnotFound
        split
        · exact ⟨_, rfl⟩
        · split
          · exact ih _ _ (by omega)
          · exact hafter
        · exact hafter

theorem Match_eq (pattern name : Str) :
    MatchLoop (pattern.length + 1) pattern name = some (Match pattern name) := by
  obtain ⟨res, hres⟩ := MatchLoop_some (pattern.length + 1) pattern name (by omega)
  simp [Match, hres]

/-! ## Lemmas on the string functions -/

theorem HasPrefix_iff (s pre : Str) : HasPrefix s pre = true ↔ pre <+: s := by
  simp only [HasPrefix, Bool.and_eq_true, decide_eq_true_eq]
  constructor
  · rintro ⟨-, h⟩
    exact List.prefix_iff_eq_take.mpr h.symm
  · intro h
    exact ⟨h.length_le, (List.prefix_iff_eq_take.mp h).symm⟩

theorem ContainsRune_iff (s : Str) (r : Nat) : ContainsRune s r = true ↔ r ∈ s := by
  simp only [ContainsRune, List.any_eq_true, decide_eq_true_eq]
  constructor
  · rintro ⟨b, hb, rfl⟩
    exact hb
  · intro h
    exact ⟨r, h, rfl⟩

theorem Split_cons (x : Nat) (xs : Str) (sep : Nat) :
    Split (x :: xs) sep =
      if x = sep then [] :: Split xs sep
      else
        match Split xs sep with
        | [] => [[x]]
        | seg :: segs => (x :: seg) :: segs := by
  rw [Split]

theorem Split_ne_nil (s : Str) (sep : Nat) : Split s sep ≠ [] := by
  induction s with
  | nil => simp [Split]
  | cons x xs ih =>
    unfold Split
    split
    · simp
    · split <;> simp

theorem Split_of_not_mem (t : Str) (sep : Nat) (h : sep ∉ t) : Split t sep = [t] := by
  induction t with
  | nil => simp [Split]
  | cons x xs ih =>
    have hx : x ≠ sep := fun e => h (by simp [e])
    have hxs : sep ∉ xs := fun e => h (by simp [e])
    unfold Split
    rw [if_neg hx, ih hxs]

theorem Split_append (t rest : Str) (sep : Nat) (h : sep ∉ t) :
    Split (t ++ sep :: rest) sep = t :: Split rest sep := by
  induction t with
  | nil =>
    show Split (sep :: rest) sep = _
    rw [Split_cons, if_pos rfl]
  | cons x xs ih =>
    have hx : x ≠ sep := fun e => h (by simp [e])
    have hxs : sep ∉ xs := fun e => h (by simp [e])
    show Split (x :: (xs ++ sep :: rest)) sep = _
    rw [Split_cons, if_neg hx, ih hxs]

theorem Split_no_sep (s : Str) (sep : Nat) : ∀ seg ∈ Split s sep, sep ∉ seg := by
  induction s with
  | nil => simp [Split]
  | cons x xs ih =>
    unfold Split
    split
    · intro seg hseg
      simp only [List.mem_cons] at hseg
      rcases hseg with rfl | hseg
      · simp
      · exact ih seg hseg
    · rename_i hx
      split
      · intro seg hseg
        simp only [List.mem_singleton] at hseg
        subst hseg
        rename_i hnil
        exact absurd hnil (Split_ne_nil xs sep)
      · rename_i seg0 segs heq
        intro seg hseg
        simp only [List.mem_cons] at hseg
        rcases hseg with rfl | hseg
        · have := ih seg0 (by simp [heq])
          simp only [List.mem_cons, not_or]
          exact ⟨fun e => hx e.symm, this⟩
        · exact ih seg (by simp [heq, hseg])

theorem Split_intercalate (s : Str) (sep : Nat) : [sep].intercalate (Split s sep) = s := by
  induction s with
  | nil => simp [Split, List.intercalate]
  | cons x xs ih =>
    unfold Split
    split
    · rename_i hx
      cases hsp : Split xs sep with
      | nil => exact absurd hsp (Split_ne_nil xs sep)
      | cons seg segs =>
        rw [hsp] at ih
        simp only [List.intercalate, List.intersperse, List.flatten, List.nil_append,
          List.singleton_append] at ih ⊢
        rw [ih, hx]
    · cases hsp : Split xs sep with
      | nil => exact absurd hsp (Split_ne_nil xs sep)
      | cons seg segs =>
        rw [hsp] at ih
        simp only
        cases segs with
        | nil =>
          simp only [List.intercalate, List.intersperse, List.flatten, List.append_nil] at ih ⊢
          rw [ih]
        | cons seg2 segs2 =>
          simp only [List.intercalate, List.intersperse, List.flatten, List.cons_append] at ih ⊢
          rw [ih]

theorem ReadString_of_not_mem (a : Str) (d : Nat) (h : d ∉ a) : ReadString a d = a := by
  induction a with
  | nil => simp [ReadString]
  | cons x xs ih =>
    have hx : x ≠ d := fun e => h (by simp [e])
    have hxs : d ∉ xs := fun e => h (by simp [e])
    unfold ReadString
    rw [if_neg hx, ih hxs]

theorem ReadString_append (a rest : Str) (d : Nat) (h : d ∉ a) :
    ReadString (a ++ d :: rest) d = a ++ [d] := by
  induction a with
  | nil =>
    show ReadString (d :: rest) d = _
    unfold ReadString
    simp
  | cons x xs ih =>
    have hx : x ≠ d := fun e => h (by simp [e])
    have hxs : d ∉ xs := fun e => h (by simp [e])
    show ReadString (x :: (xs ++ d :: rest)) d = _
    unfold ReadString
    rw [if_neg hx, ih hxs]
    rfl

theorem dropWhile_eq_of_not_mem (a : Str) (c : Nat) (h : c ∉ a) :
    a.dropWhile (fun b => decide (b = c)) = a := by
  cases a with
  | nil => rfl
  | cons x xs =>
    have hx : x ≠ c := fun e => h (by simp [e])
    simp [List.dropWhile_cons, hx]

theorem Trim_of_not_mem (a : Str) (c : Nat) (h : c ∉ a) : Trim a c = a := by
  unfold Trim
  rw [dropWhile_eq_of_not_mem a.reverse c (by simpa using h), List.reverse_reverse,
    dropWhile_eq_of_not_mem a c h]

theorem Trim_append_single (a : Str) (c : Nat) (h : c ∉ a) : Trim (a ++ [c]) c = a := by
  unfold Trim
  have h1 : (a ++ [c]).reverse = c :: a.reverse := by simp
  rw [h1, List.dropWhile_cons]
  simp only [decide_True, if_true]
  rw [dropWhile_eq_of_not_mem a.reverse c (by simpa using h), List.reverse_reverse,
    dropWhile_eq_of_not_mem a c h]

/-! ## The addition matcher -/

theorem Matches_prefix_mode (a : Addition) (p : Str)
    (hlast : p.getLast? = some PathSeparator) :
    Matches a p = some (HasPrefix a.Path p) := by
  simp [Matches, hlast]

theorem Matches_full_path_mode (a : Addition) (p : Str) (hsep : PathSeparator ∈ p)
    (hlast : p.getLast? ≠ some PathSeparator) :
    Matches a p = some (match Match p a.Path with
      | .ok result => result
      | .error _ => false) := by
  have hc : ContainsRune p PathSeparator = true := (ContainsRune_iff _ _).mpr hsep
  cases hl : p.getLast? with
  | none =>
    rw [List.getLast?_eq_none_iff] at hl
    subst hl
    simp at hsep
  | some last =>
    have hne : last ≠ PathSeparator := fun e => hlast (by rw [hl, e])
    simp only [Matches, hl, if_neg hne, hc, if_true]
    cases Match p a.Path <;> rfl

theorem Matches_basename_mode (a : Addition) (p : Str) (hne : p ≠ [])
    (hsep : PathSeparator ∉ p) :
    Matches a p = some (match Match p a.Name with
      | .ok result => result
      | .error _ => false) := by
  have hc : ¬ ContainsRune p PathSeparator = true := fun h => hsep ((ContainsRune_iff _ _).mp h)
  cases hl : p.getLast? with
  | none =>
    rw [List.getLast?_eq_none_iff] at hl
    exact absurd hl hne
  | some last =>
    have hmem : last ∈ p := List.mem_of_getLast?_eq_some hl
    have hne2 : last ≠ PathSeparator := fun e => hsep (e ▸ hmem)
    simp only [Matches, hl, if_neg hne2, hc, if_false]
    cases Match p a.Name <;> rfl

/-- C1: for every Addition `a` and every non-empty pattern `p` whose last
character is `/`, `a.Matches(p)` returns a boolean, which is true iff `a.Path`
starts with `p` as a literal prefix (metacharacters of `p` are not
interpreted).  Consequently every path `p ++ rest` matches; the path equal to
`p` without its final `/` does not match; and a path `d ++ p ++ rest`, in a
directory of that name nested below `d`, does not match by being nested: it
is refused whenever it does not itself begin with `p`, in particular whenever
neither of `d` and `p` is a prefix of the other. -/
theorem C1_directory_mode (a : Addition) (p : Str)
    (hlast : p.getLast? = some PathSeparator) :
    (Matches a p = some true ↔ p <+: a.Path) ∧
    (Matches a p = some false ↔ ¬ p <+: a.Path) ∧
    (∀ rest, a.Path = p ++ rest → Matches a p = some true) ∧
    (a.Path = p.dropLast → Matches a p = some false) ∧
    (∀ d rest, a.Path = d ++ p ++ rest → ¬ p <+: d ++ p ++ rest →
      Matches a p = some false) ∧
    (∀ d rest, a.Path = d ++ p ++ rest → ¬ p <+: d → ¬ d <+: p →
      Matches a p = some false) := by
  have hm := Matches_prefix_mode a p hlast
  have hpne : p ≠ [] := by
    intro h
    subst h
    simp at hlast
  have htrue : Matches a p = some true ↔ p <+: a.Path := by
    rw [hm, ← HasPrefix_iff]
    simp
  have hfalse : Matches a p = some false ↔ ¬ p <+: a.Path := by
    rw [hm, ← HasPrefix_iff]
    simp
  refine ⟨htrue, hfalse, ?_, ?_, ?_, ?_⟩
  · intro rest hrest
    exact htrue.mpr ⟨rest, hrest.symm⟩
  · intro hpath
    apply hfalse.mpr
    intro hpre
    have h1 := hpre.length_le
    rw [hpath, List.length_dropLast] at h1
    have h2 : 0 < p.length := List.length_pos.mpr hpne
    omega
  · intro d rest hpath hnot
    rw [← hpath] at hnot
    exact hfalse.mpr hnot
  · intro d rest hpath hpd hdp
    apply hfalse.mpr
    intro hpre
    have hd : d <+: a.Path := ⟨p ++ rest, by rw [hpath, List.append_assoc]⟩
    rcases List.prefix_or_prefix_of_prefix hpre hd with h | h
    · exact hpd h
    · exact hdp h

/-- C1, at the inputs of the claim: `src/secrets/key.pem` matches
`src/secrets/` and does not match `secrets/`, the directory `secrets` being
nested below `src/`; the file `secrets` does not match `secrets/`. -/
theorem C1_directory_mode_witness :
    Matches (NewAddition (bytes "src/secrets/key.pem") []) (bytes "src/secrets/") = some true ∧
    Matches (NewAddition (bytes "src/secrets/key.pem") []) (bytes "secrets/") = some false ∧
    Matches (NewAddition (bytes "secrets") []) (bytes "secrets/") = some false :=
  ⟨(C1_directory_mode (NewAddition (bytes "src/secrets/key.pem") []) (bytes "src/secrets/")
      (by decide)).2.2.1 (bytes "key.pem") (by decide),
   (C1_directory_mode (NewAddition (bytes "src/secrets/key.pem") []) (bytes "secrets/")
      (by decide)).2.2.2.2.2 (bytes "src/") (bytes "key.pem") (by decide)
      (fun h => absurd ((HasPrefix_iff _ _).mpr h) (by decide))
      (fun h => absurd ((HasPrefix_iff _ _).mpr h) (by decide)),
   (C1_directory_mode (NewAddition (bytes "secrets") []) (bytes "secrets/")
      (by decide)).2.2.2.1 (by decide)⟩

/-- C2: for every Addition `a` and every pattern `p` that contains `/` and
does not end in `/`, `a.Matches(p)` returns a boolean, which is true iff
`path.Match(p, a.Path)` returns `(true, nil)`, the loop of `path.Match`
terminating within its fuel; `a.Name` plays no part in the result. -/
theorem C2_full_path_glob (a : Addition) (p : Str) (hsep : PathSeparator ∈ p)
    (hlast : p.getLast? ≠ some PathSeparator) :
    (∃ b, Matches a p = some b) ∧
    (Matches a p = some true ↔ Match p a.Path = .ok true) ∧
    (Matches a p = some true ↔ MatchLoop (p.length + 1) p a.Path = some (.ok true)) ∧
    (∀ name, Matches { a with Name := name } p = Matches a p) := by
  have hm := Matches_full_path_mode a p hsep hlast
  have h1 : Matches a p = some true ↔ Match p a.Path = .ok true := by
    rw [hm]
    cases hM : Match p a.Path with
    | error e => simp
    | ok b => cases b <;> simp
  refine ⟨⟨_, hm⟩, h1, ?_, ?_⟩
  · rw [h1, Match_eq]
    simp
  · intro name
    rw [hm, Matches_full_path_mode _ p hsep hlast]

/-- C2, at the inputs of the claim: `a/b/c.txt` matches `a/*/c.txt` and does
not match `a/*/d.txt`, whatever the name recorded in the Addition. -/
theorem C2_full_path_glob_witness :
    Matches { Path := bytes "a/b/c.txt", Name := bytes "d.txt", Data := [] } (bytes "a/*/c.txt")
      = some true ∧
    Matches { Path := bytes "a/b/c.txt", Name := bytes "d.txt", Data := [] } (bytes "a/*/d.txt")
      = some false ∧
    ¬ (Matches { Path := bytes "a/b/c.txt", Name := bytes "d.txt", Data := [] }
        (bytes "a/*/d.txt") = some true) :=
  ⟨(C2_full_path_glob { Path := bytes "a/b/c.txt", Name := bytes "d.txt", Data := [] }
      (bytes "a/*/c.txt") (by decide) (by decide)).2.1.mpr (by decide),
   by decide,
   fun h => absurd ((C2_full_path_glob
      { Path := bytes "a/b/c.txt", Name := bytes "d.txt", Data := [] }
      (bytes "a/*/d.txt") (by decide) (by decide)).2.1.mp h) (by decide)⟩

/-- C3: for every path `f`, content `d` and non-empty pattern `p` without `/`,
`NewAddition(f, d).Matches(p)` returns a boolean, which is true iff
`path.Match(p, path.Base(f))` returns `(true, nil)`; two Additions built from
paths with the same basename give the same result. -/
theorem C3_basename_glob (f d p : Str) (hne : p ≠ []) (hsep : PathSeparator ∉ p) :
    (∃ b, Matches (NewAddition f d) p = some b) ∧
    (Matches (NewAddition f d) p = some true ↔ Match p (Base f) = .ok true) ∧
    (Matches (NewAddition f d) p = some true ↔
      MatchLoop (p.length + 1) p (Base f) = some (.ok true)) ∧
    (∀ g e, Base g = Base f → Matches (NewAddition g e) p = Matches (NewAddition f d) p) := by
  have hm := Matches_basename_mode (NewAddition f d) p hne hsep
  have h1 : Matches (NewAddition f d) p = some true ↔ Match p (Base f) = .ok true := by
    rw [hm]
    show _ ↔ Match p (NewAddition f d).Name = .ok true
    cases hM : Match p (NewAddition f d).Name with
    | error e => simp
    | ok b => cases b <;> simp
  refine ⟨⟨_, hm⟩, h1, ?_, ?_⟩
  · rw [h1, Match_eq]
    simp
  · intro g e hbase
    rw [hm, Matches_basename_mode (NewAddition g e) p hne hsep]
    show (some (match Match p (Base g) with
      | .ok result => result
      | .error _ => false) : Option Bool) = _
    rw [hbase]
    rfl

/-- C3, at the inputs of the claim: `deep/nested/id_rsa` matches `id_rsa`,
`other/id_rsa.pub` does not, and `x/id_rsa` agrees with `deep/nested/id_rsa`. -/
theorem C3_basename_glob_witness :
    Matches (NewAddition (bytes "deep/nested/id_rsa") []) (bytes "id_rsa") = some true ∧
    ¬ (Matches (NewAddition (bytes "other/id_rsa.pub") []) (bytes "id_rsa") = some true) ∧
    Matches (NewAddition (bytes "x/id_rsa") [1]) (bytes "id_rsa") =
      Matches (NewAddition (bytes "deep/nested/id_rsa") []) (bytes "id_rsa") :=
  ⟨(C3_basename_glob (bytes "deep/nested/id_rsa") [] (bytes "id_rsa")
      (by decide) (by decide)).2.1.mpr (by decide),
   fun h => absurd ((C3_basename_glob (bytes "other/id_rsa.pub") [] (bytes "id_rsa")
      (by decide) (by decide)).2.1.mp h) (by decide),
   (C3_basename_glob (bytes "deep/nested/id_rsa") [] (bytes "id_rsa")
      (by decide) (by decide)).2.2.2 (bytes "x/id_rsa") [1] (by decide)⟩

/-- C4: for every Addition `a` and every non-empty pattern `p` not ending in
`/` for which `path.Match` reports `ErrBadPattern` against the string tested
(`a.Path` when `p` contains `/`, `a.Name` otherwise), `a.Matches(p)` returns
`false`; it neither panics nor passes the error on. -/
theorem C4_malformed_glob (a : Addition) (p : Str) (e : GlobError) (hne : p ≠ [])
    (hlast : p.getLast? ≠ some PathSeparator)
    (hbad : Match p (if PathSeparator ∈ p then a.Path else a.Name) = .error e) :
    Matches a p = some false := by
  by_cases hsep : PathSeparator ∈ p
  · rw [if_pos hsep] at hbad
    rw [Matches_full_path_mode a p hsep hlast, hbad]
  · rw [if_neg hsep] at hbad
    rw [Matches_basename_mode a p hne hsep, hbad]

/-- C4, at an unterminated bracket class tested against the full path and at a
trailing backslash tested against the basename. -/
theorem C4_malformed_glob_witness :
    Match (bytes "src/[ab") (bytes "src/a") = .error .ErrBadPattern ∧
    Matches (NewAddition (bytes "src/a") []) (bytes "src/[ab") = some false ∧
    Match (bytes "key\\") (bytes "key") = .error .ErrBadPattern ∧
    Matches (NewAddition (bytes "src/key") []) (bytes "key\\") = some false :=
  ⟨by decide,
   C4_malformed_glob (NewAddition (bytes "src/a") []) (bytes "src/[ab") .ErrBadPattern
     (by decide) (by decide) (by decide),
   by decide,
   C4_malformed_glob (NewAddition (bytes "src/key") []) (bytes "key\\") .ErrBadPattern
     (by decide) (by decide) (by decide)⟩

/-! ## The repository accessor -/

theorem Additions_eq (w : World) (repo : GitRepo) (oldCommit newCommit path : Str) :
    Additions w repo oldCommit newCommit path =
      match w.output (diffCommand repo oldCommit newCommit path) with
      | .ok out =>
        { trace := [diffCommand repo oldCommit newCommit path]
          result := some ((nonEmptyLines out).map (fun file =>
            match ReadRepoFile w repo file with
            | .ok data => NewAddition file data
            | .error _ => NewAddition file [])) }
      | .error _ =>
        { trace := [diffCommand repo oldCommit newCommit path], result := none } := by
  simp only [Additions, outgoingNonDeletedFiles, fetchRawOutgoingDiff, executeRepoCommand,
    diffCommand, nonEmptyLines]
  cases h : w.output
      { dir := repo.root, name := bytes "git",
        args := [bytes "diff", oldCommit ++ bytes ".." ++ newCommit, bytes "--name-only",
          bytes "--diff-filter=ACM", path] } with
  | error e => rfl
  | ok out =>
    simp only [List.length_eq_zero, ne_eq]

theorem nonEmptyLines_mem (out seg : Str) (h : seg ∈ nonEmptyLines out) :
    seg ≠ [] ∧ 10 ∉ seg := by
  simp only [nonEmptyLines, List.mem_filter, decide_eq_true_eq] at h
  exact ⟨h.2, Split_no_sep out 10 seg h.1⟩

/-- The Addition that `Additions` builds for a listed file. -/
theorem Additions_result_ok (w : World) (repo : GitRepo) (oldCommit newCommit path out : Str)
    (hout : w.output (diffCommand repo oldCommit newCommit path) = .ok out) :
    (Additions w repo oldCommit newCommit path).result =
      some ((nonEmptyLines out).map (fun file =>
        match ReadRepoFile w repo file with
        | .ok data => NewAddition file data
        | .error _ => NewAddition file [])) := by
  rw [Additions_eq, hout]

theorem Additions_paths (w : World) (repo : GitRepo) (l : List Str) :
    (l.map (fun file =>
      match ReadRepoFile w repo file with
      | .ok data => NewAddition file data
      | .error _ => NewAddition file [])).map (fun a : Addition => a.Path) = l := by
  induction l with
  | nil => rfl
  | cons x xs ih =>
    simp only [List.map_cons, List.cons.injEq]
    refine ⟨?_, ih⟩
    cases ReadRepoFile w repo x <;> rfl

/-- C5: `NewAddition(f, d)` has `Path = f`, `Data = d` and
`Name = path.Base(f)`; every Addition returned by `Additions` (and so by
`AllAdditions`) satisfies `Name = path.Base(Path)`. -/
theorem C5_name_is_basename (f d : Str) :
    (NewAddition f d).Path = f ∧ (NewAddition f d).Data = d ∧
    (NewAddition f d).Name = Base f ∧
    (∀ (w : World) (repo : GitRepo) (oldCommit newCommit path : Str) (res : List Addition),
      (Additions w repo oldCommit newCommit path).result = some res →
        ∀ a ∈ res, a.Name = Base a.Path) ∧
    (∀ (w : World) (repo : GitRepo) (path : Str) (res : List Addition),
      (AllAdditions w repo path).result = some res → ∀ a ∈ res, a.Name = Base a.Path) := by
  have hAdd : ∀ (w : World) (repo : GitRepo) (oldCommit newCommit path : Str)
      (res : List Addition),
      (Additions w repo oldCommit newCommit path).result = some res →
        ∀ a ∈ res, a.Name = Base a.Path := by
    intro w repo oldCommit newCommit path res hres a ha
    rw [Additions_eq] at hres
    cases hout : w.output (diffCommand repo oldCommit newCommit path) with
    | error e =>
      rw [hout] at hres
      simp at hres
    | ok out =>
      rw [hout] at hres
      simp only [Option.some.injEq] at hres
      subst hres
      simp only [List.mem_map] at ha
      obtain ⟨file, -, rfl⟩ := ha
      cases ReadRepoFile w repo file <;> rfl
  exact ⟨rfl, rfl, rfl, hAdd, fun w repo path res h => hAdd w repo _ _ path res h⟩

/-- C5, in the scenario world: the two Additions of `v1..v2` are named `a.txt`
and `d.pem`. -/
theorem C5_name_is_basename_witness :
    (Additions scenarioWorld { root := bytes "/repo" } (bytes "v1") (bytes "v2")
      (bytes ".")).result =
      some [NewAddition (bytes "a.txt") (bytes "hello"), NewAddition (bytes "c/d.pem") []] ∧
    (∀ a ∈ [NewAddition (bytes "a.txt") (bytes "hello"), NewAddition (bytes "c/d.pem") []],
      a.Name = Base a.Path) ∧
    (NewAddition (bytes "c/d.pem") []).Name = bytes "d.pem" :=
  ⟨by decide!,
   (C5_name_is_basename [] []).2.2.2.1 scenarioWorld { root := bytes "/repo" } (bytes "v1")
     (bytes "v2") (bytes ".") _ (by decide!),
   by decide⟩

/-- C6: when the tool returns the output `out`, whatever the file system
holds, `Additions` returns a sequence whose paths are the non-empty segments
of `out` split on `'\n'`, in order (same length, same i-th element); no
returned Path is empty or contains `'\n'`; an output without non-empty line
gives the empty sequence. -/
theorem C6_paths_are_nonempty_lines (w : World) (repo : GitRepo)
    (oldCommit newCommit path out : Str)
    (hout : w.output (diffCommand repo oldCommit newCommit path) = .ok out) :
    ∃ res : List Addition, (Additions w repo oldCommit newCommit path).result = some res ∧
      res.map (fun a : Addition => a.Path) = (Split out 10).filter (fun c => decide (c ≠ [])) ∧
      res.length = ((Split out 10).filter (fun c => decide (c ≠ []))).length ∧
      (∀ i : Nat, (res[i]?).map (fun a : Addition => a.Path) =
        ((Split out 10).filter (fun c => decide (c ≠ [])))[i]?) ∧
      (∀ a ∈ res, a.Path ≠ [] ∧ 10 ∉ a.Path) ∧
      ((∀ seg ∈ Split out 10, seg = []) → res = []) := by
  refine ⟨_, Additions_result_ok w repo oldCommit newCommit path out hout, ?_, ?_, ?_, ?_, ?_⟩
  · exact Additions_paths w repo _
  · simp [nonEmptyLines]
  · intro i
    rw [← List.getElem?_map, Additions_paths]
    rfl
  · intro a ha
    simp only [List.mem_map] at ha
    obtain ⟨file, hfile, rfl⟩ := ha
    have := nonEmptyLines_mem out file hfile
    cases ReadRepoFile w repo file <;> exact this
  · intro hall
    have : nonEmptyLines out = [] := by
      simp only [nonEmptyLines, List.filter_eq_nil_iff, decide_eq_true_eq, ne_eq, not_not]
      exact hall
    rw [this]
    rfl

/-- C6, in the scenario world: the output `a.txt\n\nc/d.pem\n` gives the two
paths `a.txt` and `c/d.pem`. -/
theorem C6_paths_are_nonempty_lines_witness :
    ∃ res : List Addition,
      (Additions scenarioWorld { root := bytes "/repo" } (bytes "v1") (bytes "v2")
        (bytes ".")).result = some res ∧
      res.map (fun a : Addition => a.Path) = [bytes "a.txt", bytes "c/d.pem"] ∧
      res.length = 2 := by
  obtain ⟨res, hres, hpaths, hlen, -⟩ :=
    C6_paths_are_nonempty_lines scenarioWorld { root := bytes "/repo" } (bytes "v1")
      (bytes "v2") (bytes ".") (bytes "a.txt\n\nc/d.pem\n") (by decide)
  refine ⟨res, hres, ?_, ?_⟩
  · rw [hpaths]
    decide
  · rw [hlen]
    decide

theorem Stat_eq_true_iff (w : World) (name : Str) :
    Stat w name = true ↔
      (w.files name = some .unreadable ∨ ∃ data, w.files name = some (.content data)) := by
  simp only [Stat]
  cases h : w.files name with
  | none => simp
  | some entry => cases entry <;> simp

/-- C7 (as stated, refuted): in the scenario world the file `secret/key`
exists under the root and cannot be reached; `os.Stat` fails on it, so
`ReadRepoFileOrNothing` returns empty bytes and no error, while `ReadRepoFile`
returns the read failure. -/
theorem C7_existing_file_stat_failure :
    scenarioWorld.files (Join [bytes "/repo", bytes "secret/key"]) = some .inaccessible ∧
    ReadRepoFileOrNothing scenarioWorld { root := bytes "/repo" } (bytes "secret/key")
      = .ok [] ∧
    ReadRepoFile scenarioWorld { root := bytes "/repo" } (bytes "secret/key")
      = .error .permission ∧
    ReadRepoFileOrNothing scenarioWorld { root := bytes "/repo" } (bytes "secret/key")
      ≠ ReadRepoFile scenarioWorld { root := bytes "/repo" } (bytes "secret/key") := by
  decide!

/-- C7 (amended): for every file system state, root and relative path `r`: if
no file exists at the root joined with `r`, `ReadRepoFileOrNothing(r)` returns
an empty byte sequence and no error; if a file exists there and `os.Stat`
succeeds on it, it returns the same (bytes, error) result as `ReadRepoFile(r)`,
a read failure included; if a file exists and `os.Stat` fails on it, it
returns an empty byte sequence and no error, although `ReadRepoFile(r)`
fails. -/
theorem C7_read_or_nothing (w : World) (repo : GitRepo) (r : Str) :
    (w.files (Join [repo.root, r]) = none → ReadRepoFileOrNothing w repo r = .ok []) ∧
    (Stat w (Join [repo.root, r]) = true →
      ReadRepoFileOrNothing w repo r = ReadRepoFile w repo r) ∧
    (Stat w (Join [repo.root, r]) = false → ReadRepoFileOrNothing w repo r = .ok []) ∧
    (w.files (Join [repo.root, r]) = some .unreadable →
      ReadRepoFileOrNothing w repo r = .error .readFailed ∧
      ReadRepoFile w repo r = .error .readFailed) ∧
    (∀ data, w.files (Join [repo.root, r]) = some (.content data) →
      ReadRepoFileOrNothing w repo r = .ok data ∧ ReadRepoFile w repo r = .ok data) ∧
    (w.files (Join [repo.root, r]) = some .inaccessible →
      ReadRepoFileOrNothing w repo r = .ok [] ∧
      ReadRepoFile w repo r = .error .permission) := by
  refine ⟨?_, ?_, ?_, ?_, ?_, ?_⟩
  · intro h
    simp [ReadRepoFileOrNothing, Stat, h]
  · intro h
    simp [ReadRepoFileOrNothing, h]
  · intro h
    simp [ReadRepoFileOrNothing, h]
  · intro h
    simp [ReadRepoFileOrNothing, Stat, ReadRepoFile, ReadFile, h]
  · intro data h
    simp [ReadRepoFileOrNothing, Stat, ReadRepoFile, ReadFile, h]
  · intro h
    simp [ReadRepoFileOrNothing, Stat, ReadRepoFile, ReadFile, h]

/-- C7 (amended), in the scenario world: `c/d.pem` is missing and gives empty
bytes while `ReadRepoFile` fails; `a.txt` gives its bytes; the unreadable
`b.txt`, on which `os.Stat` succeeds, gives the read failure of
`ReadRepoFile`. -/
theorem C7_read_or_nothing_witness :
    ReadRepoFileOrNothing scenarioWorld { root := bytes "/repo" } (bytes "c/d.pem") = .ok [] ∧
    ReadRepoFile scenarioWorld { root := bytes "/repo" } (bytes "c/d.pem") = .error .notExist ∧
    ReadRepoFileOrNothing scenarioWorld { root := bytes "/repo" } (bytes "a.txt")
      = .ok (bytes "hello") ∧
    ReadRepoFileOrNothing scenarioWorld { root := bytes "/repo" } (bytes "b.txt")
      = ReadRepoFile scenarioWorld { root := bytes "/repo" } (bytes "b.txt") ∧
    ReadRepoFile scenarioWorld { root := bytes "/repo" } (bytes "b.txt") = .error .readFailed :=
  ⟨(C7_read_or_nothing scenarioWorld { root := bytes "/repo" } (bytes "c/d.pem")).1
      (by decide!),
   by decide!,
   ((C7_read_or_nothing scenarioWorld { root := bytes "/repo" } (bytes "a.txt")).2.2.2.2.1
      (bytes "hello") (by decide!)).1,
   (C7_read_or_nothing scenarioWorld { root := bytes "/repo" } (bytes "b.txt")).2.1
      (by decide!),
   by decide!⟩

/-- C8: `Additions` runs exactly one command, in the repository root: `git`
with the arguments `diff`, `oldCommit..newCommit`, `--name-only`,
`--diff-filter=ACM`, `path`, in that order; its paths are the non-empty lines
of that command's output, and it has no result when that command fails;
`AllAdditions(path)` is `Additions("origin/master", "master", path)`. -/
theorem C8_single_diff_invocation (w : World) (repo : GitRepo)
    (oldCommit newCommit path : Str) :
    (Additions w repo oldCommit newCommit path).trace =
      [{ dir := repo.root
         name := bytes "git"
         args := [bytes "diff", oldCommit ++ bytes ".." ++ newCommit, bytes "--name-only",
           bytes "--diff-filter=ACM", path] }] ∧
    (∀ out, w.output (diffCommand repo oldCommit newCommit path) = .ok out →
      ∃ res : List Addition, (Additions w repo oldCommit newCommit path).result = some res ∧
        res.map (fun a : Addition => a.Path) = nonEmptyLines out) ∧
    (∀ e, w.output (diffCommand repo oldCommit newCommit path) = .error e →
      (Additions w repo oldCommit newCommit path).result = none) ∧
    AllAdditions w repo path = Additions w repo (bytes "origin/master") (bytes "master") path ∧
    (AllAdditions w repo path).trace =
      [{ dir := repo.root
         name := bytes "git"
         args := [bytes "diff", bytes "origin/master..master", bytes "--name-only",
           bytes "--diff-filter=ACM", path] }] := by
  have htrace : ∀ o n : Str, (Additions w repo o n path).trace =
      [diffCommand repo o n path] := by
    intro o n
    rw [Additions_eq]
    cases w.output (diffCommand repo o n path) <;> rfl
  refine ⟨htrace _ _, ?_, ?_, rfl, ?_⟩
  · intro out hout
    exact ⟨_, Additions_result_ok w repo oldCommit newCommit path out hout,
      Additions_paths w repo _⟩
  · intro e he
    rw [Additions_eq, he]
  · show (Additions w repo (bytes "origin/master") (bytes "master") path).trace = _
    rw [htrace]
    have : bytes "origin/master" ++ bytes ".." ++ bytes "master" = bytes "origin/master..master" := by
      decide
    simp only [diffCommand, this]

/-- C8, in the scenario world: the diff of `v1..v2` below `.` is the one
command run. -/
theorem C8_single_diff_invocation_witness :
    (Additions scenarioWorld { root := bytes "/repo" } (bytes "v1") (bytes "v2")
      (bytes ".")).trace =
      [{ dir := bytes "/repo"
         name := bytes "git"
         args := [bytes "diff", bytes "v1..v2", bytes "--name-only", bytes "--diff-filter=ACM",
           bytes "."] }] :=
  (C8_single_diff_invocation scenarioWorld { root := bytes "/repo" } (bytes "v1") (bytes "v2")
    (bytes ".")).1

theorem ReadRepoFile_error_iff (w : World) (repo : GitRepo) (file : Str) :
    (∃ e, ReadRepoFile w repo file = .error e) ↔
      (w.files (Join [repo.root, file]) = none ∨
        w.files (Join [repo.root, file]) = some .unreadable ∨
        w.files (Join [repo.root, file]) = some .inaccessible) := by
  simp only [ReadRepoFile, ReadFile]
  cases h : w.files (Join [repo.root, file]) with
  | none => simp
  | some entry => cases entry <;> simp

theorem addition_of_file (w : World) (repo : GitRepo) (file : Str) :
    ∃ data : Str,
      (match ReadRepoFile w repo file with
        | .ok data => NewAddition file data
        | .error _ => NewAddition file []) = NewAddition file data ∧
      (∀ e, ReadRepoFile w repo file = .error e → data = []) ∧
      (∀ d, ReadRepoFile w repo file = .ok d → data = d) := by
  cases h : ReadRepoFile w repo file with
  | error e => exact ⟨[], rfl, fun _ _ => rfl, fun d hd => by simp at hd⟩
  | ok d0 =>
    refine ⟨d0, rfl, fun e he => by simp at he, fun d hd => ?_⟩
    simp only [Except.ok.injEq] at hd
    exact hd

/-- C10: when the tool returns the output `out`, `Additions` returns one
Addition per listed path, whatever the reads do: the i-th Addition has the
i-th listed path as `Path` and its basename as `Name`; its `Data` is empty
when the read of that path fails (the file is missing or unreadable) and is
exactly the bytes read otherwise. -/
theorem C10_failed_read_gives_empty_data (w : World) (repo : GitRepo)
    (oldCommit newCommit path out : Str)
    (hout : w.output (diffCommand repo oldCommit newCommit path) = .ok out) :
    ∃ res : List Addition, (Additions w repo oldCommit newCommit path).result = some res ∧
      res.length = (nonEmptyLines out).length ∧
      ∀ (i : Nat) (file : Str), (nonEmptyLines out)[i]? = some file →
        ∃ a : Addition, res[i]? = some a ∧ a.Path = file ∧ a.Name = Base file ∧
          (∀ e, ReadRepoFile w repo file = .error e → a.Data = []) ∧
          (w.files (Join [repo.root, file]) = none ∨
            w.files (Join [repo.root, file]) = some .unreadable → a.Data = []) ∧
          (∀ data, ReadRepoFile w repo file = .ok data → a.Data = data) := by
  refine ⟨_, Additions_result_ok w repo oldCommit newCommit path out hout, by simp, ?_⟩
  intro i file hfile
  obtain ⟨data, hd, herr, hok⟩ := addition_of_file w repo file
  refine ⟨NewAddition file data, ?_, rfl, rfl, herr, ?_, hok⟩
  · rw [List.getElem?_map, hfile]
    exact congrArg some hd
  · intro hmiss
    obtain ⟨e, he⟩ := (ReadRepoFile_error_iff w repo file).mpr
      (hmiss.elim Or.inl (fun h => Or.inr (Or.inl h)))
    exact herr e he

/-- C10, in the scenario world: `c/d.pem` is listed and missing, and the
result still has two Additions, the second with path `c/d.pem`, name `d.pem`
and empty data, the first with the bytes of `a.txt`. -/
theorem C10_failed_read_gives_empty_data_witness :
    ∃ res : List Addition,
      (Additions scenarioWorld { root := bytes "/repo" } (bytes "v1") (bytes "v2")
        (bytes ".")).result = some res ∧
      res.length = 2 ∧
      (∃ a : Addition, res[1]? = some a ∧ a.Path = bytes "c/d.pem" ∧ a.Name = bytes "d.pem" ∧
        a.Data = []) ∧
      (∃ a : Addition, res[0]? = some a ∧ a.Path = bytes "a.txt" ∧ a.Data = bytes "hello") := by
  obtain ⟨res, hres, hlen, hall⟩ :=
    C10_failed_read_gives_empty_data scenarioWorld { root := bytes "/repo" } (bytes "v1")
      (bytes "v2") (bytes ".") (bytes "a.txt\n\nc/d.pem\n") (by decide)
  refine ⟨res, hres, ?_, ?_, ?_⟩
  · rw [hlen]
    decide
  · obtain ⟨a, ha, hp, hn, -, hmiss, -⟩ := hall 1 (bytes "c/d.pem") (by decide)
    exact ⟨a, ha, hp, by rw [hn]; decide, hmiss (Or.inl (by decide!))⟩
  · obtain ⟨a, ha, hp, -, -, -, hdata⟩ := hall 0 (bytes "a.txt") (by decide)
    exact ⟨a, ha, hp, hdata (bytes "hello") (by decide!)⟩

/-! ## `readRefAndSha` -/

/-- C9 (as stated, refuted): with two spaces between the first two tokens the
second result is the empty string; with tabs between the tokens the line is
one token and the sentinel values are returned; a carriage return before the
newline stays in the fourth result. -/
theorem C9_other_whitespace_not_skipped :
    readRefAndSha (bytes "0000") (bytes "a  b c d\n")
      = (bytes "a", bytes "", bytes "b", bytes "c") ∧
    readRefAndSha (bytes "0000") (bytes "a  b c d\n")
      ≠ (bytes "a", bytes "b", bytes "c", bytes "d") ∧
    readRefAndSha (bytes "0000") (bytes "a\tb\tc\td\n")
      = (bytes "0000", bytes "0000", bytes "", bytes "") ∧
    readRefAndSha (bytes "0000") (bytes "a b c d\r\n")
      = (bytes "a", bytes "b", bytes "c", bytes "d\r") := by
  decide

/-- C9 (amended): for every standard input whose first line consists of four
tokens `t1 t2 t3 t4` (byte strings without space or newline) separated by
exactly one space each, `readRefAndSha` returns `(t1, t2, t3, t4)`, whether
the line is ended by a newline (followed by anything) or by the end of the
input. -/
theorem C9_single_space_tokens (EmptySha t1 t2 t3 t4 rest : Str)
    (h1 : 32 ∉ t1 ∧ 10 ∉ t1) (h2 : 32 ∉ t2 ∧ 10 ∉ t2)
    (h3 : 32 ∉ t3 ∧ 10 ∉ t3) (h4 : 32 ∉ t4 ∧ 10 ∉ t4) :
    readRefAndSha EmptySha ((t1 ++ 32 :: (t2 ++ 32 :: (t3 ++ 32 :: t4))) ++ 10 :: rest)
      = (t1, t2, t3, t4) ∧
    readRefAndSha EmptySha (t1 ++ 32 :: (t2 ++ 32 :: (t3 ++ 32 :: t4))) = (t1, t2, t3, t4) := by
  have hline : 10 ∉ t1 ++ 32 :: (t2 ++ 32 :: (t3 ++ 32 :: t4)) := by
    simp only [List.mem_append, List.mem_cons, not_or]
    exact ⟨h1.2, by decide, h2.2, by decide, h3.2, by decide, h4.2⟩
  have hsplit : Split (t1 ++ 32 :: (t2 ++ 32 :: (t3 ++ 32 :: t4))) 32 = [t1, t2, t3, t4] := by
    rw [Split_append t1 _ 32 h1.1, Split_append t2 _ 32 h2.1, Split_append t3 _ 32 h3.1,
      Split_of_not_mem t4 32 h4.1]
  constructor
  · simp only [readRefAndSha]
    rw [ReadString_append _ rest 10 hline, Trim_append_single _ 10 hline, hsplit]
    rfl
  · simp only [readRefAndSha]
    rw [ReadString_of_not_mem _ 10 hline, Trim_of_not_mem _ 10 hline, hsplit]
    rfl

/-- C9 (amended), at the line of a pre-push hook, with and without the final
newline. -/
theorem C9_single_space_tokens_witness :
    readRefAndSha (bytes "0000") (bytes "refs/heads/master 67ab refs/heads/master 12cd\n")
      = (bytes "refs/heads/master", bytes "67ab", bytes "refs/heads/master", bytes "12cd") ∧
    readRefAndSha (bytes "0000") (bytes "refs/heads/master 67ab refs/heads/master 12cd")
      = (bytes "refs/heads/master", bytes "67ab", bytes "refs/heads/master", bytes "12cd") := by
  have h := C9_single_space_tokens (bytes "0000") (bytes "refs/heads/master") (bytes "67ab")
    (bytes "refs/heads/master") (bytes "12cd") [] (by decide) (by decide) (by decide) (by decide)
  have e1 : bytes "refs/heads/master 67ab refs/heads/master 12cd\n" =
      (bytes "refs/heads/master" ++ 32 :: (bytes "67ab" ++ 32 ::
        (bytes "refs/heads/master" ++ 32 :: bytes "12cd"))) ++ 10 :: [] := by decide
  have e2 : bytes "refs/heads/master 67ab refs/heads/master 12cd" =
      bytes "refs/heads/master" ++ 32 :: (bytes "67ab" ++ 32 ::
        (bytes "refs/heads/master" ++ 32 :: bytes "12cd")) := by decide
  rw [e1, e2]
  exact h

/-! ## What the embedded matcher computes on simple patterns -/

/-- The pattern `*` matches exactly the names without `/`. -/
theorem Match_star (name : Str) : Match [42] name = .ok (!ContainsRune name 47) := by
  simp [Match, MatchLoop, scanChunk, scanIndex]

theorem scanIndex_literal (p : Str) : ∀ (b : Bool),
    (∀ c ∈ p, c ≠ 42 ∧ c ≠ 63 ∧ c ≠ 91 ∧ c ≠ 92) → scanIndex p b = p.length := by
  induction p with
  | nil => intro b _; rfl
  | cons c rest ih =>
    intro b h
    have hc := h c (by simp)
    have hrest : ∀ d ∈ rest, d ≠ 42 ∧ d ≠ 63 ∧ d ≠ 91 ∧ d ≠ 92 :=
      fun d hd => h d (by simp [hd])
    rw [scanIndex.eq_def]
    simp only
    rw [if_neg hc.2.2.2, if_neg hc.2.2.1]
    split_ifs
    · rw [ih _ hrest]; simp only [List.length_cons]; omega
    · exact absurd ‹c = 42› hc.1
    · exact absurd ‹c = 42› hc.1
    · rw [ih _ hrest]; simp only [List.length_cons]; omega

theorem scanChunk_literal (p : Str) (hne : p ≠ [])
    (h : ∀ c ∈ p, c ≠ 42 ∧ c ≠ 63 ∧ c ≠ 91 ∧ c ≠ 92) : scanChunk p = (false, p, []) := by
  cases p with
  | nil => exact absurd rfl hne
  | cons c rest =>
    have hc := h c (by simp)
    have hd : (c :: rest).dropWhile (fun b => decide (b = 42)) = c :: rest := by
      simp [List.dropWhile_cons, hc.1]
    simp only [scanChunk, hd, scanIndex_literal (c :: rest) false h]
    simp [hc.1]

theorem matchChunkLoop_literal (fuel : Nat) : ∀ (p s : Str) (failed : Bool),
    p.length < fuel → (∀ c ∈ p, c ≠ 42 ∧ c ≠ 63 ∧ c ≠ 91 ∧ c ≠ 92) →
    matchChunkLoop fuel p s failed =
      some (.ok (if failed = false ∧ HasPrefix s p = true then some (s.drop p.length) else none)) := by
  induction fuel with
  | zero => intro p s failed h; omega
  | succ fuel ih =>
    intro p s failed hlen hlit
    cases p with
    | nil =>
      rw [matchChunkLoop.eq_def]
      cases failed <;> simp [HasPrefix]
    | cons c rest =>
      have hc := hlit c (by simp)
      have hrest : ∀ d ∈ rest, d ≠ 42 ∧ d ≠ 63 ∧ d ≠ 91 ∧ d ≠ 92 :=
        fun d hd => hlit d (by simp [hd])
      simp only [List.length_cons] at hlen
      rw [matchChunkLoop.eq_def]
      simp only [if_neg hc.2.2.1, if_neg hc.2.1, if_neg hc.2.2.2]
      cases failed with
      | true =>
        simp only [Bool.true_or, if_true]
        rw [ih rest s true (by omega) hrest]
        simp
      | false =>
        cases s with
        | nil =>
          simp only [List.isEmpty_nil, Bool.or_true, if_true]
          rw [ih rest [] true (by omega) hrest]
          simp [HasPrefix]
        | cons x xs =>
          simp only [List.isEmpty_cons, Bool.or_self, Bool.false_eq_true, if_false,
            List.tail_cons, List.head?_cons]
          rw [ih rest xs _ (by omega) hrest]
          by_cases hx : x = c
          · subst hx
            simp [HasPrefix]
          · have hx2 : ¬ (c = x) := fun e => hx e.symm
            simp [HasPrefix, hx, hx2]

/-- A pattern without metacharacters matches exactly the name equal to it. -/
theorem Match_literal (p name : Str) (h : ∀ c ∈ p, c ≠ 42 ∧ c ≠ 63 ∧ c ≠ 91 ∧ c ≠ 92) :
    Match p name = .ok (decide (name = p)) := by
  by_cases hne : p = []
  · subst hne
    simp [Match, MatchLoop]
  · have hsc := scanChunk_literal p hne h
    have hpos : 0 < p.length := List.length_pos.mpr hne
    have hmc : matchChunk p name =
        .ok (if HasPrefix name p = true then some (name.drop p.length) else none) := by
      simp [matchChunk, matchChunkLoop_literal (p.length + 1) p name false (by omega) h]
    obtain ⟨k, hk⟩ : ∃ k, p.length = k + 1 := ⟨p.length - 1, by omega⟩
    simp only [Match, MatchLoop, if_neg hne, hsc, hmc]
    by_cases hp : HasPrefix name p = true
    · have hpre := (HasPrefix_iff name p).mp hp
      obtain ⟨t, rfl⟩ := hpre
      simp only [hp, if_true, List.drop_left]
      by_cases ht : t = []
      · subst ht
        simp [hk, MatchLoop]
      · simp [ht, checkLoop]
    · have hnp : name ≠ p := by
        intro e
        subst e
        exact hp ((HasPrefix_iff _ _).mpr (List.prefix_refl _))
      simp [hp, hnp, checkLoop]

/-- The pattern `?` matches a one-byte name unless the byte is `/`, and does
not match the empty name. -/
theorem Match_question (c : Nat) (hc : c < 128) :
    Match [63] [c] = .ok (decide (c ≠ 47)) ∧ Match [63] [] = .ok false := by
  constructor
  · by_cases h : c = 47
    · subst h
      decide
    · simp [Match, MatchLoop, scanChunk, scanIndex, matchChunk, matchChunkLoop,
        DecodeRuneInString, hc, checkLoop, h]
  · decide

/-! ## The embedded library functions on the examples of their documentation -/

/-- The embedding of `path.Match` on cases of the library's test table. -/
theorem Match_examples :
    Match (bytes "abc") (bytes "abc") = .ok true ∧
    Match (bytes "*") (bytes "abc") = .ok true ∧
    Match (bytes "*c") (bytes "abc") = .ok true ∧
    Match (bytes "a*") (bytes "a") = .ok true ∧
    Match (bytes "a*") (bytes "ab/c") = .ok false ∧
    Match (bytes "a*/b") (bytes "abc/b") = .ok true ∧
    Match (bytes "a*/b") (bytes "a/c/b") = .ok false ∧
    Match (bytes "a*b*c*d*e*/f") (bytes "axbxcxdxe/f") = .ok true ∧
    Match (bytes "a*b*c*d*e*/f") (bytes "axbxcxdxe/xxx/f") = .ok false ∧
    Match (bytes "a*b?c*x") (bytes "abxbbxdbxebxczzx") = .ok true ∧
    Match (bytes "a*b?c*x") (bytes "abxbbxdbxebxczzy") = .ok false ∧
    Match (bytes "ab[c]") (bytes "abc") = .ok true ∧
    Match (bytes "ab[b-d]") (bytes "abc") = .ok true ∧
    Match (bytes "ab[e-g]") (bytes "abc") = .ok false ∧
    Match (bytes "ab[^c]") (bytes "abc") = .ok false ∧
    Match (bytes "ab[^e-g]") (bytes "abc") = .ok true ∧
    Match (bytes "a\\*b") (bytes "a*b") = .ok true ∧
    Match (bytes "a\\*b") (bytes "ab") = .ok false ∧
    Match (bytes "a?b") (bytes "a☺b") = .ok true ∧
    Match (bytes "a[^a]b") (bytes "a☺b") = .ok true ∧
    Match (bytes "a???b") (bytes "a☺b") = .ok false ∧
    Match (bytes "a?b") (bytes "a/b") = .ok false ∧
    Match (bytes "a*b") (bytes "a/b") = .ok false ∧
    Match (bytes "[\\]a]") (bytes "]") = .ok true ∧
    Match (bytes "[\\-]") (bytes "-") = .ok true ∧
    Match (bytes "[x\\-]") (bytes "z") = .ok false ∧
    Match (bytes "*x") (bytes "xxx") = .ok true := by
  decide!

/-- The embedding of `path.Match` on the malformed patterns of the library's
test table. -/
theorem Match_bad_pattern_examples :
    Match (bytes "[]a]") (bytes "]") = .error .ErrBadPattern ∧
    Match (bytes "[-]") (bytes "-") = .error .ErrBadPattern ∧
    Match (bytes "[a-b-c]") (bytes "a") = .error .ErrBadPattern ∧
    Match (bytes "[") (bytes "a") = .error .ErrBadPattern ∧
    Match (bytes "[^") (bytes "a") = .error .ErrBadPattern ∧
    Match (bytes "[^bc") (bytes "a") = .error .ErrBadPattern ∧
    Match (bytes "a[") (bytes "a") = .error .ErrBadPattern ∧
    Match (bytes "a[") (bytes "ab") = .error .ErrBadPattern ∧
    Match (bytes "a[") (bytes "x") = .error .ErrBadPattern ∧
    Match (bytes "a/b[") (bytes "x") = .error .ErrBadPattern ∧
    Match (bytes "[x-]") (bytes "x") = .error .ErrBadPattern ∧
    Match (bytes "[-x]") (bytes "x") = .error .ErrBadPattern ∧
    Match (bytes "\\") (bytes "a") = .error .ErrBadPattern := by
  decide!

/-- The embedding of `path.Clean` and `path.Join` on cases of the library's
test tables. -/
theorem Clean_examples :
    Clean (bytes "") = bytes "." ∧
    Clean (bytes "abc/def") = bytes "abc/def" ∧
    Clean (bytes "/") = bytes "/" ∧
    Clean (bytes "abc/") = bytes "abc" ∧
    Clean (bytes "abc//def//ghi") = bytes "abc/def/ghi" ∧
    Clean (bytes "//abc") = bytes "/abc" ∧
    Clean (bytes "abc/./def") = bytes "abc/def" ∧
    Clean (bytes "/./abc/def") = bytes "/abc/def" ∧
    Clean (bytes "abc/def/ghi/../jkl") = bytes "abc/def/jkl" ∧
    Clean (bytes "abc/def/../..") = bytes "." ∧
    Clean (bytes "/abc/def/../..") = bytes "/" ∧
    Clean (bytes "abc/def/../../..") = bytes ".." ∧
    Clean (bytes "/abc/def/../../..") = bytes "/" ∧
    Clean (bytes "abc/def/../../../ghi/jkl/../../../mno") = bytes "../../mno" ∧
    Clean (bytes "abc/./../def") = bytes "def" ∧
    Clean (bytes "abc//./../def") = bytes "def" ∧
    Clean (bytes "abc/../../././../def") = bytes "../../def" ∧
    Join [bytes "a", bytes "b"] = bytes "a/b" ∧
    Join [bytes "a", bytes ""] = bytes "a" ∧
    Join [bytes "", bytes "b"] = bytes "b" ∧
    Join [bytes "/", bytes "a"] = bytes "/a" ∧
    Join [bytes "a/", bytes "b"] = bytes "a/b" ∧
    Join [bytes "", bytes ""] = bytes "" ∧
    Join [bytes "/repo", bytes "c/d.pem"] = bytes "/repo/c/d.pem" := by
  decide!

/-- The embeddings of `path.Base`, `strings.Split`, `strings.Trim`,
`bufio.Reader.ReadString` and `utf8.DecodeRuneInString` on examples. -/
theorem string_examples :
    Base (bytes "") = bytes "." ∧
    Base (bytes ".") = bytes "." ∧
    Base (bytes "/.") = bytes "." ∧
    Base (bytes "/") = bytes "/" ∧
    Base (bytes "////") = bytes "/" ∧
    Base (bytes "x/") = bytes "x" ∧
    Base (bytes "abc") = bytes "abc" ∧
    Base (bytes "abc/def") = bytes "def" ∧
    Base (bytes "a/b/.x") = bytes ".x" ∧
    Base (bytes "a/b/c.") = bytes "c." ∧
    Base (bytes "a/b/c.x") = bytes "c.x" ∧
    Split (bytes "a\n\nb\n") 10 = [bytes "a", bytes "", bytes "b", bytes ""] ∧
    Split (bytes "") 10 = [bytes ""] ∧
    Split (bytes "a b c") 32 = [bytes "a", bytes "b", bytes "c"] ∧
    Trim (bytes "\n\nab\ncd\n") 10 = bytes "ab\ncd" ∧
    ReadString (bytes "ab\ncd\n") 10 = bytes "ab\n" ∧
    ReadString (bytes "ab") 10 = bytes "ab" ∧
    DecodeRuneInString (bytes "€x") = (8364, 3) ∧
    DecodeRuneInString (bytes "😀") = (128512, 4) ∧
    DecodeRuneInString [237, 160, 128] = (RuneError, 1) ∧
    DecodeRuneInString [192, 128] = (RuneError, 1) ∧
    DecodeRuneInString [] = (RuneError, 0) := by
  decide!

end Talisman
